import Mathlib

/-!
Verification of the `BigDecimal` arbitrary-precision decimal library.

The embedding models the TypeScript class `BigDecimal` from `src/decimal.ts`:
a value is a pair of an arbitrary-precision signed integer `significant`
(JS `bigint`, modelled as `ℤ`) and an integer `exponent`, denoting
`significant * 10 ^ exponent`.  JS `bigint` division truncates toward zero
and `%` is the truncating remainder, so all divisions and remainders of the
source are modelled with `Int.tdiv` / `Int.tmod`.  Methods that `throw` are
modelled with `Except Err`.  Private recursive methods whose recursion depth
is at most one (`add` swapping its operands, the per-mode rounding routines
negating a negative receiver, `integralPart` / `decimalPart` on negatives)
are embedded with that single recursive call unfolded.
-/

/-- Model of the `BigDecimal` class: `significant` is the JS `bigint` field,
`exponent` the JS `number` field (always an integer in the library). -/
structure BigDecimal where
  significant : ℤ
  exponent : ℤ
deriving DecidableEq, Repr

/-- Errors thrown by the library (`throw new Error(...)` in the source). -/
inductive Err where
  | invalidOperand
  | divisionUndefined
  | divisionByZero
deriving DecidableEq, Repr

/-- Model of the `RoundingMode` union type from `src/rounding.ts`. -/
inductive RoundingMode where
  | ceiling
  | floor
  | up
  | down
  | halfUp
  | halfDown
  | halfEven
deriving DecidableEq, Repr

/-- Mirror of a rounding mode under negation (spec, §4.3): `ceiling` and
`floor` are mirrors of each other, every other mode is self-mirrored. -/
def RoundingMode.mirror : RoundingMode → RoundingMode
  | .ceiling => .floor
  | .floor => .ceiling
  | m => m

namespace BigDecimal

/-- Constant `BigDecimal.ZERO = new BigDecimal(0n, 0)`. -/
def ZERO : BigDecimal := ⟨0, 0⟩

/-- Constant `BigDecimal.ONE = new BigDecimal(1n, 0)`. -/
def ONE : BigDecimal := ⟨1, 0⟩

/-- Constant `BigDecimal.MINUS_ONE = new BigDecimal(-1n, 0)`. -/
def MINUS_ONE : BigDecimal := ⟨-1, 0⟩

/-- Constant `BigDecimal.TWO = new BigDecimal(2n, 0)`. -/
def TWO : BigDecimal := ⟨2, 0⟩

/-- Constant `BigDecimal.TEN = new BigDecimal(1n, 1)`. -/
def TEN : BigDecimal := ⟨1, 1⟩

/-- Semantic value of a `BigDecimal` as a rational:
`significant * 10 ^ exponent` (spec, §3 "Semantic value"). -/
def valueQ (x : BigDecimal) : ℚ := (x.significant : ℚ) * (10 : ℚ) ^ x.exponent

/-- Model of `negate()`: flips the sign of the significant, keeps the exponent. -/
def negate (x : BigDecimal) : BigDecimal := ⟨-x.significant, x.exponent⟩

/-- Model of `signum()`: -1, 0 or 1 according to the sign of the significant. -/
def signum (x : BigDecimal) : ℤ :=
  if x.significant < 0 then -1 else if x.significant = 0 then 0 else 1

/-- Model of `abs()`. -/
def abs (x : BigDecimal) : BigDecimal :=
  if x.significant < 0 then x.negate else x

/-- Loop of `normalized()`: `while (significant % 10n === 0n) {
significant /= 10n; exponent++; }`.  The source loop is unbounded; here it
carries a fuel argument so that the definition is structural and the kernel
can evaluate it.  The loop is only entered with a nonzero significant, and
with fuel `m.natAbs` the fuel never runs out before the exit condition
`m % 10 ≠ 0` holds (each pass divides `|m|` by ten), so the bounded loop
computes the same result as the source's unbounded one; `normLoopF_spec`
below proves that the result always satisfies the exit condition. -/
def normLoopF : ℕ → ℤ → ℤ → ℤ × ℤ
  | 0, m, e => (m, e)
  | f + 1, m, e => if m.tmod 10 = 0 then normLoopF f (m.tdiv 10) (e + 1) else (m, e)

/-- Model of `normalized()`: returns `(0, 0)` when the significant is zero,
otherwise strips factors of ten from the significant, incrementing the
exponent once per stripped factor. -/
def normalized (x : BigDecimal) : BigDecimal :=
  if x.significant = 0 then ⟨0, 0⟩
  else
    let p := normLoopF x.significant.natAbs x.significant x.exponent
    ⟨p.1, p.2⟩

/-- Model of `add(other)` with the single operand-swapping recursive call of
the source (`if (diff < 0) return other.add(this)`) unfolded: after the
swap `diff >= 0` always holds, so the recursion never goes deeper. -/
def add (x y : BigDecimal) : BigDecimal :=
  if x.exponent - y.exponent < 0 then
    normalized ⟨x.significant + y.significant * 10 ^ (y.exponent - x.exponent).toNat,
      min y.exponent x.exponent⟩
  else
    normalized ⟨y.significant + x.significant * 10 ^ (x.exponent - y.exponent).toNat,
      min x.exponent y.exponent⟩

/-- Model of `subtract(other) = add(other.negate())`. -/
def subtract (x y : BigDecimal) : BigDecimal := add x (negate y)

/-- Model of `multiply(other)`: significants multiply, exponents add,
then normalize. -/
def multiply (x y : BigDecimal) : BigDecimal :=
  normalized ⟨x.significant * y.significant, x.exponent + y.exponent⟩

/-- Model of `scaleByPowerOfTen(exponent)`: adds to the exponent and
normalizes. -/
def scaleByPowerOfTen (x : BigDecimal) (e : ℤ) : BigDecimal :=
  normalized ⟨x.significant, x.exponent + e⟩

/-- Model of `equals(other)`: strict component-wise comparison. -/
def equals (x y : BigDecimal) : Bool :=
  x.significant == y.significant && x.exponent == y.exponent

/-- Model of `equalValue(other)`: normalize both sides, then compare
components. -/
def equalValue (x y : BigDecimal) : Bool :=
  equals (normalized x) (normalized y)

/-- Scaling loop of `divide`: `for (let i = 0; i < 10 && m % d !== 0n; i++)
{ m *= 10n; e--; }`, with the remaining iteration budget as fuel (the source
checks `i < 10` before the divisibility condition, which is exactly fuel
exhaustion). -/
def divLoop (d : ℤ) : ℕ → ℤ → ℤ → ℤ × ℤ
  | 0, m, e => (m, e)
  | n + 1, m, e => if m.tmod d = 0 then (m, e) else divLoop d n (m * 10) (e - 1)

/-- Model of `divide(other)`: throws on a zero divisor, returns zero for a
zero dividend, otherwise scales the dividend's significant by at most ten
factors of ten until divisible, then divides the significants (truncating)
and subtracts the exponents. -/
def divide (a b : BigDecimal) : Except Err BigDecimal :=
  if b.significant = 0 then
    if a.significant = 0 then .error .divisionUndefined else .error .divisionByZero
  else if a.significant = 0 then .ok ⟨0, 0⟩
  else
    let p := divLoop b.significant 10 a.significant a.exponent
    .ok (normalized ⟨p.1.tdiv b.significant, p.2 - b.exponent⟩)

/-- Non-negative branch of `#roundCeiling`: drop the excess digits and
increment the kept base.  `10n ** BigInt(excessExponent)` is modelled with
`toNat`; every call the library can reach has `excessExponent > 0`. -/
def roundCeilingPos (x : BigDecimal) (precision : ℤ) : BigDecimal :=
  let modulo : ℤ := 10 ^ (-x.exponent - precision).toNat
  ⟨x.significant.tdiv modulo + 1, -precision⟩

/-- Non-negative branch of `#roundFloor`: drop the excess digits. -/
def roundFloorPos (x : BigDecimal) (precision : ℤ) : BigDecimal :=
  let modulo : ℤ := 10 ^ (-x.exponent - precision).toNat
  ⟨x.significant.tdiv modulo, -precision⟩

/-- Non-negative branch of `#roundUp` (identical computation to
`#roundCeiling`'s non-negative branch in the source). -/
def roundUpPos (x : BigDecimal) (precision : ℤ) : BigDecimal :=
  let modulo : ℤ := 10 ^ (-x.exponent - precision).toNat
  ⟨x.significant.tdiv modulo + 1, -precision⟩

/-- Non-negative branch of `#roundDown` (identical computation to
`#roundFloor`'s non-negative branch in the source). -/
def roundDownPos (x : BigDecimal) (precision : ℤ) : BigDecimal :=
  let modulo : ℤ := 10 ^ (-x.exponent - precision).toNat
  ⟨x.significant.tdiv modulo, -precision⟩

/-- Non-negative branch of `#roundHalfUp`: `remainder` is the single digit
just beyond the kept precision, computed as
`(significant % modulo) / (modulo / 10n)`. -/
def roundHalfUpPos (x : BigDecimal) (precision : ℤ) : BigDecimal :=
  let modulo : ℤ := 10 ^ (-x.exponent - precision).toNat
  let base := x.significant.tdiv modulo
  let remainder := (x.significant.tmod modulo).tdiv (modulo.tdiv 10)
  if remainder < 5 then ⟨base, -precision⟩ else ⟨base + 1, -precision⟩

/-- Non-negative branch of `#roundHalfDown`. -/
def roundHalfDownPos (x : BigDecimal) (precision : ℤ) : BigDecimal :=
  let modulo : ℤ := 10 ^ (-x.exponent - precision).toNat
  let base := x.significant.tdiv modulo
  let remainder := (x.significant.tmod modulo).tdiv (modulo.tdiv 10)
  if remainder ≤ 5 then ⟨base, -precision⟩ else ⟨base + 1, -precision⟩

/-- Non-negative branch of `#roundHalfEven`: increment when the excess digit
exceeds 5, or equals 5 with an odd base (`base % 2n === 0n` keeps the base). -/
def roundHalfEvenPos (x : BigDecimal) (precision : ℤ) : BigDecimal :=
  let modulo : ℤ := 10 ^ (-x.exponent - precision).toNat
  let base := x.significant.tdiv modulo
  let remainder := (x.significant.tmod modulo).tdiv (modulo.tdiv 10)
  if remainder < 5 then ⟨base, -precision⟩
  else if remainder = 5 then
    if base.tmod 2 = 0 then ⟨base, -precision⟩ else ⟨base + 1, -precision⟩
  else ⟨base + 1, -precision⟩

/-- Model of `#roundCeiling`: a negative receiver is negated, rounded with
the mirror mode `#roundFloor` (whose receiver is then non-negative, so its
own negative branch is not taken) and negated back. -/
def roundCeiling (x : BigDecimal) (precision : ℤ) : BigDecimal :=
  if x.significant < 0 then negate (roundFloorPos (negate x) precision)
  else roundCeilingPos x precision

/-- Model of `#roundFloor`; negative receivers go through `#roundCeiling`. -/
def roundFloor (x : BigDecimal) (precision : ℤ) : BigDecimal :=
  if x.significant < 0 then negate (roundCeilingPos (negate x) precision)
  else roundFloorPos x precision

/-- Model of `#roundUp`; self-mirrored on negative receivers. -/
def roundUp (x : BigDecimal) (precision : ℤ) : BigDecimal :=
  if x.significant < 0 then negate (roundUpPos (negate x) precision)
  else roundUpPos x precision

/-- Model of `#roundDown`; self-mirrored on negative receivers. -/
def roundDown (x : BigDecimal) (precision : ℤ) : BigDecimal :=
  if x.significant < 0 then negate (roundDownPos (negate x) precision)
  else roundDownPos x precision

/-- Model of `#roundHalfUp`; self-mirrored on negative receivers. -/
def roundHalfUp (x : BigDecimal) (precision : ℤ) : BigDecimal :=
  if x.significant < 0 then negate (roundHalfUpPos (negate x) precision)
  else roundHalfUpPos x precision

/-- Model of `#roundHalfDown`; self-mirrored on negative receivers. -/
def roundHalfDown (x : BigDecimal) (precision : ℤ) : BigDecimal :=
  if x.significant < 0 then negate (roundHalfDownPos (negate x) precision)
  else roundHalfDownPos x precision

/-- Model of `#roundHalfEven`; self-mirrored on negative receivers. -/
def roundHalfEven (x : BigDecimal) (precision : ℤ) : BigDecimal :=
  if x.significant < 0 then negate (roundHalfEvenPos (negate x) precision)
  else roundHalfEvenPos x precision

/-- Body of `round` on an already-normalized receiver (the source's
`normalized: true` branch): zero returns `ZERO` regardless of mode and
precision; a value whose excess exponent is not positive is returned
unchanged; otherwise the mode routine runs and its result is normalized. -/
def roundNorm (roundingMode : RoundingMode) (precision : ℤ) (x : BigDecimal) :
    BigDecimal :=
  if x.significant = 0 then ZERO
  else if -x.exponent - precision ≤ 0 then x
  else
    match roundingMode with
    | .ceiling => normalized (roundCeiling x precision)
    | .floor => normalized (roundFloor x precision)
    | .up => normalized (roundUp x precision)
    | .down => normalized (roundDown x precision)
    | .halfUp => normalized (roundHalfUp x precision)
    | .halfDown => normalized (roundHalfDown x precision)
    | .halfEven => normalized (roundHalfEven x precision)

/-- Model of `round(props)`: normalizes the receiver, then runs the
already-normalized branch (the source's recursive self-call with
`normalized: true` unfolded). -/
def round (roundingMode : RoundingMode) (precision : ℤ) (x : BigDecimal) :
    BigDecimal :=
  roundNorm roundingMode precision (normalized x)

/-- Model of `divideToIntegralValue(other)`: divide, then round toward zero
at precision 0. -/
def divideToIntegralValue (a b : BigDecimal) : Except Err BigDecimal :=
  (divide a b).map (round RoundingMode.down 0)

/-- Model of `remainder(other)`:
`this.subtract(this.divideToIntegralValue(other).multiply(other))`. -/
def remainder (a b : BigDecimal) : Except Err BigDecimal :=
  (divideToIntegralValue a b).map fun t => subtract a (multiply t b)

/-- Non-negative branch of `integralPart()`: normalize; an exponent `>= 0`
means the value is already an integer, otherwise truncate the significant by
the power of ten of the fractional digits. -/
def integralPartPos (x : BigDecimal) : BigDecimal :=
  let n := normalized x
  if 0 ≤ n.exponent then n
  else ⟨n.significant.tdiv ((10 : ℤ) ^ (-n.exponent).toNat), 0⟩

/-- Model of `integralPart()`: a negative receiver is negated, split, and
negated back (the recursive call of the source acts on a non-negative value
and is unfolded). -/
def integralPart (x : BigDecimal) : BigDecimal :=
  if x.significant < 0 then negate (integralPartPos (negate x))
  else integralPartPos x

/-- Non-negative branch of `decimalPart()`: the remainder of the significant
by the power of ten of the fractional digits, at the normalized exponent. -/
def decimalPartPos (x : BigDecimal) : BigDecimal :=
  let n := normalized x
  if 0 ≤ n.exponent then ZERO
  else ⟨n.significant.tmod ((10 : ℤ) ^ (-n.exponent).toNat), n.exponent⟩

/-- Model of `decimalPart()`; negatives as in `integralPart`. -/
def decimalPart (x : BigDecimal) : BigDecimal :=
  if x.significant < 0 then negate (decimalPartPos (negate x))
  else decimalPartPos x

/-- One Newton iteration of `sqrt()`:
`guess = guess - (guess * guess - a) / (guess + guess)`. -/
def newtonStep (a g : BigDecimal) : Except Err BigDecimal :=
  (divide (subtract (multiply g g) a) (add g g)).map fun q => subtract g q

/-- The fixed-count Newton iteration of `sqrt()` (`#SQRT_ROUNDS = 10`). -/
def newtonLoop : ℕ → BigDecimal → BigDecimal → Except Err BigDecimal
  | 0, _, g => .ok g
  | n + 1, a, g =>
    match newtonStep a g with
    | .error err => .error err
    | .ok g' => newtonLoop n a g'

/-- Model of `sqrt()`.  Modelled from the spec for the seed: the source
seeds the iteration with `BigDecimal.valueOf(Math.sqrt(this.number()))`,
a native floating-point computation outside this exact integer model, so the
seed is a parameter here.  For a numerically zero operand the floating
computation is exact (`Math.sqrt(0) === 0`, parsed back as `(0, 0)`), which
theorems express as a hypothesis on the seed function. -/
def sqrtWithSeed (seed : BigDecimal → BigDecimal) (a : BigDecimal) :
    Except Err BigDecimal :=
  if a.significant < 0 then .error .invalidOperand
  else
    match newtonLoop 10 a (seed a) with
    | .error err => .error err
    | .ok g => .ok (normalized g)

/-- Numeric value of a digit string, as `BigInt(digits)` computes it
(so `"05"` gives 5). -/
def digitsVal (l : List Char) : ℕ :=
  l.foldl (fun a c => a * 10 + (c.toNat - '0'.toNat)) 0

/-- Matching of the parse pattern
`^(-?[0-9]+)(?:\.([0-9]+)(?:[eE](-?[0-9]+))?)?$` from `#valueOfString`,
returning (unit sign, unit digits, fractional digits, exponent value). -/
def parseParts (l : List Char) : Option (Bool × List Char × Option (List Char) × Option ℤ) :=
  let sp := match l with
    | '-' :: t => (true, t)
    | _ => (false, l)
  let ds := sp.2.span (·.isDigit)
  if ds.1.isEmpty then none
  else
    match ds.2 with
    | [] => some (sp.1, ds.1, none, none)
    | '.' :: l3 =>
      let fs := l3.span (·.isDigit)
      if fs.1.isEmpty then none
      else
        match fs.2 with
        | [] => some (sp.1, ds.1, some fs.1, none)
        | c :: l5 =>
          if c = 'e' ∨ c = 'E' then
            let esp := match l5 with
              | '-' :: t => (true, t)
              | _ => (false, l5)
            let es := esp.2.span (·.isDigit)
            if es.1.isEmpty || !es.2.isEmpty then none
            else
              some (sp.1, ds.1, some fs.1,
                some (if esp.1 then -(digitsVal es.1 : ℤ) else (digitsVal es.1 : ℤ)))
          else none
    | _ => none

/-- Model of `#valueOfString`: parse the pattern, build the unit part from
capture 1 (`BigInt("-0")` is 0), the fractional part from capture 2 with a
negative exponent of its digit count, negate the fractional contribution
when `units.signum() === -1`, then scale by the optional exponent and
normalize.  `none` models the `"Invalid string"` throw. -/
def valueOfString (s : String) : Option BigDecimal :=
  match parseParts s.toList with
  | none => none
  | some (neg, unitDigits, fracPart, expPart) =>
    let units : BigDecimal :=
      ⟨if neg then -(digitsVal unitDigits : ℤ) else (digitsVal unitDigits : ℤ), 0⟩
    let decimals0 : BigDecimal :=
      match fracPart with
      | some fd => ⟨(digitsVal fd : ℤ), -(fd.length : ℤ)⟩
      | none => ⟨0, 0⟩
    let decimals := if signum units = -1 then negate decimals0 else decimals0
    let e : ℤ := match expPart with | some ev => ev | none => 0
    some (normalized (scaleByPowerOfTen (add units decimals) e))

/-- JS `String.prototype.substring(a, b)` semantics: both indices are
clamped into `[0, length]` and swapped when out of order. -/
def jsSubstring (s : String) (a b : ℤ) : String :=
  let len : ℤ := s.length
  let a' := min (max a 0) len
  let b' := min (max b 0) len
  let lo := (min a' b').toNat
  let hi := (max a' b').toNat
  ((s.toList.drop lo).take (hi - lo)).asString

/-- JS `String.prototype.padEnd(target, "0")`: append zero characters up to
the target length. -/
def padEndZeros (s : String) (target : ℕ) : String :=
  s ++ (List.replicate (target - s.length) '0').asString

/-- Model of `toString()`: sign, then the digits of the significant padded
with `exponent` zeros when the exponent is positive, or split by
`substring` into units and decimals when the exponent is negative. -/
def toStr (x : BigDecimal) : String :=
  let sign := if x.significant < 0 then "-" else ""
  let numbers := Nat.repr x.significant.natAbs
  if 0 < x.exponent then
    sign ++ padEndZeros numbers (x.exponent.toNat + numbers.length)
  else if x.exponent = 0 then
    sign ++ numbers
  else
    let cut : ℤ := (numbers.length : ℤ) + x.exponent
    let units := jsSubstring numbers 0 cut
    let decimals := jsSubstring numbers cut (numbers.length : ℤ)
    sign ++ units ++ "." ++ decimals

theorem eq_of_parts {x y : BigDecimal} (h1 : x.significant = y.significant)
    (h2 : x.exponent = y.exponent) : x = y := by
  cases x
  cases y
  simp_all

theorem tmod_neg_left (a b : ℤ) : (-a).tmod b = -(a.tmod b) := by
  rw [Int.tmod_def, Int.tmod_def, Int.neg_tdiv]
  ring

theorem valueQ_mk (m e : ℤ) : valueQ ⟨m, e⟩ = (m : ℚ) * (10 : ℚ) ^ e := rfl

theorem valueQ_eq_zero_iff (x : BigDecimal) : valueQ x = 0 ↔ x.significant = 0 := by
  unfold valueQ
  rw [mul_eq_zero]
  constructor
  · rintro (h | h)
    · exact_mod_cast h
    · exact absurd h (zpow_ne_zero _ (by norm_num))
  · intro h
    exact Or.inl (by exact_mod_cast h)

/-- Exit-condition invariant and value preservation of the normalization
loop: with fuel at least `|m|` the loop always reaches a significant that is
nonzero and not divisible by ten, and it preserves the semantic value. -/
theorem normLoopF_spec (f : ℕ) : ∀ (m e : ℤ), m ≠ 0 → m.natAbs ≤ f →
    (normLoopF f m e).1 ≠ 0 ∧ (normLoopF f m e).1.tmod 10 ≠ 0 ∧
      ((normLoopF f m e).1 : ℚ) * (10 : ℚ) ^ (normLoopF f m e).2
        = (m : ℚ) * (10 : ℚ) ^ e := by
  induction f with
  | zero =>
    intro m e hm hf
    have := Int.natAbs_pos.mpr hm
    omega
  | succ f ih =>
    intro m e hm hf
    simp only [normLoopF]
    by_cases h10 : m.tmod 10 = 0
    · rw [if_pos h10]
      obtain ⟨c, hc⟩ := Int.dvd_of_tmod_eq_zero h10
      have htdiv : m.tdiv 10 = c := by
        rw [hc]
        exact Int.mul_tdiv_cancel_left c (by norm_num)
      have hc0 : c ≠ 0 := by
        rintro rfl
        rw [mul_zero] at hc
        exact hm hc
      have hle : c.natAbs ≤ f := by
        have h1 : (m.tdiv 10).natAbs = m.natAbs / 10 := Int.natAbs_tdiv m 10
        rw [htdiv] at h1
        have h2 : m.natAbs / 10 < m.natAbs :=
          Nat.div_lt_self (Int.natAbs_pos.mpr hm) (by decide)
        omega
      obtain ⟨ih1, ih2, ih3⟩ := ih c (e + 1) hc0 hle
      rw [htdiv]
      refine ⟨ih1, ih2, ?_⟩
      rw [ih3, hc]
      push_cast
      rw [zpow_add_one₀ (by norm_num : (10 : ℚ) ≠ 0)]
      ring
    · rw [if_neg h10]
      exact ⟨hm, h10, rfl⟩

theorem normalized_of_zero {x : BigDecimal} (h : x.significant = 0) :
    normalized x = ⟨0, 0⟩ := by
  simp [normalized, h]

theorem normalized_spec (x : BigDecimal) (h : x.significant ≠ 0) :
    (normalized x).significant ≠ 0 ∧ (normalized x).significant.tmod 10 ≠ 0 ∧
      valueQ (normalized x) = valueQ x := by
  have hs := normLoopF_spec x.significant.natAbs x.significant x.exponent h le_rfl
  unfold normalized
  rw [if_neg h]
  exact ⟨hs.1, hs.2.1, hs.2.2⟩

theorem valueQ_normalized (x : BigDecimal) : valueQ (normalized x) = valueQ x := by
  by_cases h : x.significant = 0
  · rw [normalized_of_zero h, (valueQ_eq_zero_iff x).mpr h]
    simp [valueQ]
  · exact (normalized_spec x h).2.2

theorem normLoopF_eq_self (f : ℕ) (m e : ℤ) (h : m.tmod 10 ≠ 0) :
    normLoopF f m e = (m, e) := by
  cases f <;> simp [normLoopF, h]

theorem normalized_eq_self {x : BigDecimal} (h0 : x.significant ≠ 0)
    (h10 : x.significant.tmod 10 ≠ 0) : normalized x = x := by
  unfold normalized
  rw [if_neg h0, normLoopF_eq_self _ _ _ h10]

/-- Two normal forms with the same semantic value have identical components
(uniqueness of the normalized representation). -/
theorem normalForm_unique_aux {m1 e1 m2 e2 : ℤ} (h2le : e2 ≤ e1)
    (hm2 : m2.tmod 10 ≠ 0)
    (hv : (m1 : ℚ) * (10 : ℚ) ^ e1 = (m2 : ℚ) * (10 : ℚ) ^ e2) :
    m1 = m2 ∧ e1 = e2 := by
  have hd : (0 : ℤ) ≤ e1 - e2 := by omega
  have he : e1 = e2 + ((e1 - e2).toNat : ℤ) := by omega
  rw [he, zpow_add₀ (by norm_num : (10 : ℚ) ≠ 0)] at hv
  have h10 : ((10 : ℚ) ^ e2) ≠ 0 := zpow_ne_zero _ (by norm_num)
  have hq : (m1 : ℚ) * (10 : ℚ) ^ (((e1 - e2).toNat : ℤ)) = m2 := by
    apply mul_right_cancel₀ h10
    calc (m1 : ℚ) * (10 : ℚ) ^ (((e1 - e2).toNat : ℤ)) * (10 : ℚ) ^ e2
        = (m1 : ℚ) * ((10 : ℚ) ^ e2 * (10 : ℚ) ^ (((e1 - e2).toNat : ℤ))) := by ring
      _ = (m2 : ℚ) * (10 : ℚ) ^ e2 := hv
  rw [zpow_natCast] at hq
  have hZ : m1 * 10 ^ (e1 - e2).toNat = m2 := by exact_mod_cast hq
  by_cases hd0 : (e1 - e2).toNat = 0
  · rw [hd0, pow_zero, mul_one] at hZ
    exact ⟨hZ, by omega⟩
  · exfalso
    apply hm2
    apply Int.tmod_eq_zero_of_dvd
    have hpow : (10 : ℤ) ^ (e1 - e2).toNat = 10 ^ ((e1 - e2).toNat - 1) * 10 := by
      rw [← pow_succ]
      congr 1
      omega
    exact ⟨m1 * 10 ^ ((e1 - e2).toNat - 1), by rw [← hZ, hpow]; ring⟩

theorem normalized_unique {x y : BigDecimal} (h : valueQ x = valueQ y) :
    normalized x = normalized y := by
  by_cases hx : x.significant = 0
  · have hy : y.significant = 0 :=
      (valueQ_eq_zero_iff y).mp (by rw [← h]; exact (valueQ_eq_zero_iff x).mpr hx)
    rw [normalized_of_zero hx, normalized_of_zero hy]
  · have hy : y.significant ≠ 0 := fun h0 =>
      hx ((valueQ_eq_zero_iff x).mp (by rw [h]; exact (valueQ_eq_zero_iff y).mpr h0))
    obtain ⟨hx0, hx10, hxv⟩ := normalized_spec x hx
    obtain ⟨hy0, hy10, hyv⟩ := normalized_spec y hy
    have hv : ((normalized x).significant : ℚ) * (10 : ℚ) ^ (normalized x).exponent
        = ((normalized y).significant : ℚ) * (10 : ℚ) ^ (normalized y).exponent := by
      have : valueQ (normalized x) = valueQ (normalized y) := by rw [hxv, hyv, h]
      simpa [valueQ] using this
    rcases le_total (normalized y).exponent (normalized x).exponent with hle | hle
    · obtain ⟨h1, h2⟩ := normalForm_unique_aux hle hy10 hv
      exact eq_of_parts h1 h2
    · obtain ⟨h1, h2⟩ := normalForm_unique_aux hle hx10 hv.symm
      exact eq_of_parts h1.symm h2.symm

theorem negate_negate (x : BigDecimal) : negate (negate x) = x := by
  simp [negate]

theorem valueQ_negate (x : BigDecimal) : valueQ (negate x) = -valueQ x := by
  simp [valueQ, negate]

theorem normalized_negate (x : BigDecimal) :
    normalized (negate x) = negate (normalized x) := by
  by_cases h : x.significant = 0
  · rw [normalized_of_zero h, normalized_of_zero (show (negate x).significant = 0 by simp [negate, h])]
    simp [negate]
  · obtain ⟨h0, h10, _⟩ := normalized_spec x h
    have hstep : normalized (negate (normalized x)) = negate (normalized x) := by
      apply normalized_eq_self
      · simpa [negate] using h0
      · show (-(normalized x).significant).tmod 10 ≠ 0
        rw [tmod_neg_left]
        simpa using h10
    calc normalized (negate x) = normalized (negate (normalized x)) :=
          normalized_unique (by rw [valueQ_negate, valueQ_negate, valueQ_normalized])
      _ = negate (normalized x) := hstep

/-- Value of an aligned sum of significants: adding after multiplying the
higher-exponent significant by the power-of-ten gap preserves the sum of the
two semantic values. -/
theorem valueQ_align {mhigh mlow ehigh elow : ℤ} (h : elow ≤ ehigh) :
    ((mlow + mhigh * 10 ^ (ehigh - elow).toNat : ℤ) : ℚ) * (10 : ℚ) ^ elow
      = (mhigh : ℚ) * (10 : ℚ) ^ ehigh + (mlow : ℚ) * (10 : ℚ) ^ elow := by
  obtain ⟨d, hd⟩ : ∃ d : ℕ, ehigh = elow + d := ⟨(ehigh - elow).toNat, by omega⟩
  subst hd
  have ht : (elow + d - elow).toNat = d := by omega
  rw [ht, zpow_add₀ (by norm_num : (10 : ℚ) ≠ 0), zpow_natCast]
  push_cast
  ring

theorem valueQ_add (x y : BigDecimal) : valueQ (add x y) = valueQ x + valueQ y := by
  unfold add
  split
  · next h =>
    rw [valueQ_normalized, valueQ_mk, min_eq_right (by omega : x.exponent ≤ y.exponent),
      valueQ_align (by omega : x.exponent ≤ y.exponent)]
    unfold valueQ
    ring
  · next h =>
    rw [valueQ_normalized, valueQ_mk, min_eq_right (by omega : y.exponent ≤ x.exponent),
      valueQ_align (by omega : y.exponent ≤ x.exponent)]
    unfold valueQ
    ring

theorem valueQ_subtract (x y : BigDecimal) :
    valueQ (subtract x y) = valueQ x - valueQ y := by
  unfold subtract
  rw [valueQ_add, valueQ_negate]
  ring

theorem valueQ_multiply (x y : BigDecimal) :
    valueQ (multiply x y) = valueQ x * valueQ y := by
  unfold multiply
  rw [valueQ_normalized, valueQ_mk]
  push_cast
  rw [zpow_add₀ (by norm_num : (10 : ℚ) ≠ 0)]
  unfold valueQ
  ring

theorem valueQ_scaleByPowerOfTen (x : BigDecimal) (e : ℤ) :
    valueQ (scaleByPowerOfTen x e) = valueQ x * (10 : ℚ) ^ e := by
  unfold scaleByPowerOfTen
  rw [valueQ_normalized, valueQ_mk, zpow_add₀ (by norm_num : (10 : ℚ) ≠ 0)]
  unfold valueQ
  ring

/-- Claim C6: after normalization, a nonzero significant is never divisible
by ten and a zero significant forces a zero exponent; consequently
normalization is idempotent. -/
theorem c6_normalized_invariant_idempotent (x : BigDecimal) :
    ((normalized x).significant ≠ 0 → ¬(10 ∣ (normalized x).significant)) ∧
    ((normalized x).significant = 0 → (normalized x).exponent = 0) ∧
    normalized (normalized x) = normalized x := by
  by_cases h : x.significant = 0
  · rw [normalized_of_zero h]
    exact ⟨fun h0 => absurd rfl h0, fun _ => rfl, normalized_of_zero rfl⟩
  · obtain ⟨h0, h10, _⟩ := normalized_spec x h
    exact ⟨fun _ hdvd => h10 (Int.tmod_eq_zero_of_dvd hdvd),
      fun hc => absurd hc h0, normalized_eq_self h0 h10⟩

/-- Witness for C6 at the concrete input `(250, 0)`, whose normal form is
`(25, 1)`. -/
theorem c6_normalized_invariant_idempotent_witness :
    (normalized ⟨250, 0⟩).significant ≠ 0 ∧ ¬(10 ∣ (normalized ⟨250, 0⟩).significant) :=
  ⟨by decide, (c6_normalized_invariant_idempotent ⟨250, 0⟩).1 (by decide)⟩

/-- Claim C1: `divide` fails with `DivisionUndefined` exactly when both
operands are numerically zero, fails with `DivisionByZero` exactly when the
divisor is zero and the dividend is nonzero, and returns zero immediately
when the dividend is zero and the divisor nonzero; in particular
`divide(ZERO, ZERO)` is `DivisionUndefined` and `divide(ONE, ZERO)` is
`DivisionByZero`. -/
theorem c1_divide_error_cases (a b : BigDecimal) :
    (divide a b = .error .divisionUndefined ↔ valueQ a = 0 ∧ valueQ b = 0) ∧
    (divide a b = .error .divisionByZero ↔ valueQ b = 0 ∧ valueQ a ≠ 0) ∧
    (valueQ a = 0 → valueQ b ≠ 0 → divide a b = .ok ZERO) ∧
    divide ZERO ZERO = .error .divisionUndefined ∧
    divide ONE ZERO = .error .divisionByZero := by
  have hA := valueQ_eq_zero_iff a
  have hB := valueQ_eq_zero_iff b
  refine ⟨?_, ?_, ?_, ?_, ?_⟩
  · unfold divide
    split
    · split <;> simp_all
    · split <;> simp_all
  · unfold divide
    split
    · split <;> simp_all
    · split <;> simp_all
  · intro ha hb
    rw [hA] at ha
    have hb' : ¬b.significant = 0 := fun h => hb (hB.mpr h)
    unfold divide
    simp [ha, hb', ZERO]
  · rfl
  · rfl

/-- Witness for C1 at concrete inputs: the zero-dividend branch applies to
`divide(ZERO, ONE)`. -/
theorem c1_divide_error_cases_witness :
    (ZERO.significant = 0 ∧ ONE.significant ≠ 0) ∧ divide ZERO ONE = .ok ZERO := by
  refine ⟨⟨rfl, by decide⟩, ?_⟩
  exact (c1_divide_error_cases ZERO ONE).2.2.1
    ((valueQ_eq_zero_iff ZERO).mpr rfl)
    (fun h => absurd ((valueQ_eq_zero_iff ONE).mp h) (by decide))

/-- Claim C4 fails on the code (counterexample): for the accepted string
`"-0.5"` the unit capture is `"-0"`, whose numeric value `BigInt("-0")` is 0
with `signum()` 0 rather than -1, so the fractional contribution is NOT
negated and the parse yields +0.5 = (5, -1), i.e. exactly the excluded form
`-U + 0.F`; with nonzero unit digits (`"-2.5"`) the negation does occur. -/
theorem c4_parse_negative_zero_unit :
    valueOfString "-0.5" = some ⟨5, -1⟩ ∧
    valueQ ⟨5, -1⟩ = 1 / 2 ∧
    valueOfString "-2.5" = some ⟨-25, -1⟩ := by
  refine ⟨by decide, ?_, by decide⟩
  norm_num [valueQ]

/-- Claim C5 fails on the code (counterexample): `valueOf("0.5")` parses
correctly to (5, -1), but `toString` renders it as `".5"` (the `substring`
split leaves an empty units part), so the round-trip
`valueOf(s).toString() == s` fails at `s = "0.5"`; it also renders
0.05 = (5, -2) as `".5"`, which is not even the same number.  The round trip
does hold on the spec's own example `"10.325"`. -/
theorem c5_toString_drops_integer_part :
    valueOfString "0.5" = some ⟨5, -1⟩ ∧
    toStr ⟨5, -1⟩ = ".5" ∧
    toStr ⟨5, -2⟩ = ".5" ∧
    (valueOfString "10.325").map toStr = some "10.325" := by
  exact ⟨by decide, by decide, by decide, by decide⟩

/-- Claim C10: `sqrt` of a numerically zero value fails with the 0/0
`DivisionUndefined` error (the first Newton step divides zero by zero)
rather than returning zero, and a result is only ever produced for strictly
positive operands — negative ones fail with `InvalidOperand`.  The
floating-point seed enters only through the hypothesis that it is zero on a
numerically zero operand, which holds in the source because
`Math.sqrt(0) === 0` is exact. -/
theorem c10_sqrt_zero_division_undefined (seed : BigDecimal → BigDecimal)
    (a : BigDecimal) :
    (a.significant = 0 → (seed a).significant = 0 →
      sqrtWithSeed seed a = .error .divisionUndefined) ∧
    (a.significant < 0 → sqrtWithSeed seed a = .error .invalidOperand) ∧
    (∀ r, sqrtWithSeed seed a = .ok r →
      (a.significant = 0 → (seed a).significant = 0) → 0 < a.significant) := by
  have main : a.significant = 0 → (seed a).significant = 0 →
      sqrtWithSeed seed a = .error .divisionUndefined := by
    intro ha hg
    have hgv : valueQ (seed a) = 0 := (valueQ_eq_zero_iff _).mpr hg
    have hav : valueQ a = 0 := (valueQ_eq_zero_iff _).mpr ha
    have hsub : (subtract (multiply (seed a) (seed a)) a).significant = 0 := by
      rw [← valueQ_eq_zero_iff, valueQ_subtract, valueQ_multiply, hgv, hav]
      ring
    have hadd : (add (seed a) (seed a)).significant = 0 := by
      rw [← valueQ_eq_zero_iff, valueQ_add, hgv]
      ring
    have hstep : newtonStep a (seed a) = .error .divisionUndefined := by
      unfold newtonStep divide
      rw [if_pos hadd, if_pos hsub]
      rfl
    unfold sqrtWithSeed
    rw [if_neg (by omega : ¬a.significant < 0)]
    simp [newtonLoop, hstep]
  refine ⟨main, ?_, ?_⟩
  · intro ha
    unfold sqrtWithSeed
    rw [if_pos ha]
  · intro r hok hseed
    rcases lt_trichotomy a.significant 0 with h | h | h
    · rw [(by unfold sqrtWithSeed; rw [if_pos h] :
        sqrtWithSeed seed a = .error .invalidOperand)] at hok
      exact absurd hok (by simp)
    · rw [main h (hseed h)] at hok
      exact absurd hok (by simp)
    · exact h

/-- Mirror-dispatch shape shared by all seven `#round*` routines: a routine
whose non-negative branch is `posA` and whose negative branch defers to
`posB` is the pointwise negation-mirror of the routine with the two branch
bodies swapped, on every value with a nonzero significant. -/
theorem dispatch_mirror {posA posB : BigDecimal → ℤ → BigDecimal}
    {n : BigDecimal} {p : ℤ} (hz : n.significant ≠ 0) :
    (if (negate n).significant < 0 then negate (posB (negate (negate n)) p)
      else posA (negate n) p)
      = negate (if n.significant < 0 then negate (posA (negate n) p)
        else posB n p) := by
  rcases lt_trichotomy n.significant 0 with h | h | h
  · rw [if_neg (show ¬(negate n).significant < 0 by simp [negate]; omega),
      if_pos h, negate_negate]
  · exact absurd h hz
  · rw [if_pos (show (negate n).significant < 0 by simp [negate]; omega),
      if_neg (by omega), negate_negate]

/-- Claim C3: every rounding mode applied to a negated value equals the
negation of its mirror mode applied to the original value, for every
precision: `ceiling` and `floor` are mirrors of each other, and `up`,
`down`, `halfUp`, `halfDown`, `halfEven` are each self-mirrored. -/
theorem c3_round_mirror_negation (x : BigDecimal) (p : ℤ) (m : RoundingMode) :
    round m.mirror p (negate x) = negate (round m p x) := by
  unfold round
  rw [normalized_negate]
  set n := normalized x with hn
  unfold roundNorm
  by_cases hz : n.significant = 0
  · rw [if_pos (show (negate n).significant = 0 by simp [negate, hz]), if_pos hz]
    apply eq_of_parts <;> simp [ZERO, negate]
  · rw [if_neg (show ¬(negate n).significant = 0 by simp [negate, hz]), if_neg hz]
    by_cases he : -n.exponent - p ≤ 0
    · rw [if_pos (show -(negate n).exponent - p ≤ 0 from he), if_pos he]
    · rw [if_neg (show ¬(-(negate n).exponent - p ≤ 0) from he), if_neg he]
      cases m with
      | ceiling =>
        show normalized (roundFloor (negate n) p) = negate (normalized (roundCeiling n p))
        have hswap : roundFloor (negate n) p = negate (roundCeiling n p) := by
          unfold roundFloor roundCeiling
          exact dispatch_mirror hz
        rw [hswap]
        exact normalized_negate _
      | floor =>
        show normalized (roundCeiling (negate n) p) = negate (normalized (roundFloor n p))
        have hswap : roundCeiling (negate n) p = negate (roundFloor n p) := by
          unfold roundCeiling roundFloor
          exact dispatch_mirror hz
        rw [hswap]
        exact normalized_negate _
      | up =>
        show normalized (roundUp (negate n) p) = negate (normalized (roundUp n p))
        have hswap : roundUp (negate n) p = negate (roundUp n p) := by
          unfold roundUp
          exact dispatch_mirror hz
        rw [hswap]
        exact normalized_negate _
      | down =>
        show normalized (roundDown (negate n) p) = negate (normalized (roundDown n p))
        have hswap : roundDown (negate n) p = negate (roundDown n p) := by
          unfold roundDown
          exact dispatch_mirror hz
        rw [hswap]
        exact normalized_negate _
      | halfUp =>
        show normalized (roundHalfUp (negate n) p) = negate (normalized (roundHalfUp n p))
        have hswap : roundHalfUp (negate n) p = negate (roundHalfUp n p) := by
          unfold roundHalfUp
          exact dispatch_mirror hz
        rw [hswap]
        exact normalized_negate _
      | halfDown =>
        show normalized (roundHalfDown (negate n) p) = negate (normalized (roundHalfDown n p))
        have hswap : roundHalfDown (negate n) p = negate (roundHalfDown n p) := by
          unfold roundHalfDown
          exact dispatch_mirror hz
        rw [hswap]
        exact normalized_negate _
      | halfEven =>
        show normalized (roundHalfEven (negate n) p) = negate (normalized (roundHalfEven n p))
        have hswap : roundHalfEven (negate n) p = negate (roundHalfEven n p) := by
          unfold roundHalfEven
          exact dispatch_mirror hz
        rw [hswap]
        exact normalized_negate _

/-- Floor of a rational quotient of a non-negative integer by a positive
integer is the truncating integer division. -/
theorem floor_div_eq_tdiv (m M : ℤ) (hm : 0 ≤ m) (hM : 0 < M) :
    ⌊(m : ℚ) / (M : ℚ)⌋ = m.tdiv M := by
  have htd : m.tdiv M = m / M := Int.tdiv_eq_ediv hm (le_of_lt hM)
  have hMq : (0 : ℚ) < (M : ℚ) := by exact_mod_cast hM
  rw [htd, Int.floor_eq_iff]
  constructor
  · rw [le_div_iff₀ hMq]
    have h1 := Int.ediv_add_emod m M
    have h2 := Int.emod_nonneg m (ne_of_gt hM)
    calc ((m / M : ℤ) : ℚ) * M = ((M * (m / M) : ℤ) : ℚ) := by push_cast; ring
      _ ≤ m := by exact_mod_cast (by omega : M * (m / M) ≤ m)
  · rw [div_lt_iff₀ hMq]
    have h1 := Int.ediv_add_emod m M
    have h2 := Int.emod_lt_of_pos m hM
    calc (m : ℚ) < ((M * (m / M) + M : ℤ) : ℚ) := by
          exact_mod_cast (by omega : m < M * (m / M) + M)
      _ = ((m / M : ℤ) + 1) * M := by push_cast; ring

/-- Digit extraction: for a natural number, the quotient of
`m mod 10 ^ (j+1)` by `10 ^ j` is the quotient of `m` by `10 ^ j` modulo
ten (the single decimal digit at position `j`). -/
theorem digit_split (mn j : ℕ) :
    ((mn : ℤ).tmod ((10 : ℤ) ^ (j + 1))).tdiv ((10 : ℤ) ^ j)
      = ((mn : ℤ).tdiv ((10 : ℤ) ^ j)) % 10 := by
  have c1 : ((10 : ℤ) ^ (j + 1)) = ((10 ^ (j + 1) : ℕ) : ℤ) := by push_cast; rfl
  have c2 : ((10 : ℤ) ^ j) = ((10 ^ j : ℕ) : ℤ) := by push_cast; rfl
  rw [c1, c2, ← Int.ofNat_tmod, ← Int.ofNat_tdiv, ← Int.ofNat_tdiv]
  have hn : mn % (10 ^ j * 10) / 10 ^ j = mn / 10 ^ j % 10 :=
    Nat.mod_mul_right_div_self mn (10 ^ j) 10
  rw [pow_succ]
  exact_mod_cast hn

/-- Claim C2: for every value and every precision `p ≥ 0` at which excess
digits exist, half-even rounding keeps as base the first `p` fractional
digits of the value (the floor of `value * 10^p`, the value being positive
here; negative receivers are covered by the C3 mirror symmetry) and
increments the base exactly when the single digit immediately beyond the
kept precision exceeds 5, or equals 5 with an odd base; it never increments
when that digit is below 5.  Concretely, at precision 1 both `"2.15"` and
`"2.25"` round to `"2.2"`. -/
theorem c2_round_half_even_digit_rule (x : BigDecimal) (p : ℤ) :
    (0 ≤ p → 0 < (normalized x).significant → 0 < -(normalized x).exponent - p →
      round RoundingMode.halfEven p x =
        normalized ⟨if 5 < ⌊valueQ x * (10 : ℚ) ^ (p + 1)⌋ % 10
              ∨ (⌊valueQ x * (10 : ℚ) ^ (p + 1)⌋ % 10 = 5
                  ∧ ¬(2 ∣ ⌊valueQ x * (10 : ℚ) ^ p⌋))
            then ⌊valueQ x * (10 : ℚ) ^ p⌋ + 1 else ⌊valueQ x * (10 : ℚ) ^ p⌋,
          -p⟩) ∧
    (valueOfString "2.15").map (fun v => toStr (round RoundingMode.halfEven 1 v))
      = some "2.2" ∧
    (valueOfString "2.25").map (fun v => toStr (round RoundingMode.halfEven 1 v))
      = some "2.2" := by
  refine ⟨?_, by decide, by decide⟩
  intro hp hpos hex
  set n := normalized x with hn
  have hve : valueQ x = valueQ n := (valueQ_normalized x).symm
  have hkk : ((-n.exponent - p).toNat : ℤ) = -n.exponent - p := Int.toNat_of_nonneg (by omega)
  have hkk1 : 1 ≤ (-n.exponent - p).toNat := by omega
  set kk := (-n.exponent - p).toNat with hkkdef
  set M : ℤ := 10 ^ kk with hMdef
  have hM : 0 < M := pow_pos (by norm_num) kk
  have hMsplit : M = 10 ^ (kk - 1) * 10 := by
    rw [hMdef, ← pow_succ]
    congr 1
    omega
  have hM10 : M.tdiv 10 = 10 ^ (kk - 1) := by
    rw [hMsplit]
    exact Int.mul_tdiv_cancel _ (by norm_num)
  have hb : ⌊valueQ x * (10 : ℚ) ^ p⌋ = n.significant.tdiv M := by
    have hval : valueQ x * (10 : ℚ) ^ p = (n.significant : ℚ) / (M : ℚ) := by
      rw [hve]
      unfold valueQ
      rw [mul_assoc, ← zpow_add₀ (by norm_num : (10 : ℚ) ≠ 0)]
      have he : n.exponent + p = -(kk : ℤ) := by omega
      rw [he, zpow_neg, zpow_natCast, div_eq_mul_inv, hMdef]
      push_cast
      ring
    rw [hval, floor_div_eq_tdiv _ _ (le_of_lt hpos) hM]
  have hd : ⌊valueQ x * (10 : ℚ) ^ (p + 1)⌋ % 10
      = (n.significant.tmod M).tdiv (M.tdiv 10) := by
    have hval : valueQ x * (10 : ℚ) ^ (p + 1)
        = (n.significant : ℚ) / (((10 : ℤ) ^ (kk - 1) : ℤ) : ℚ) := by
      rw [hve]
      unfold valueQ
      rw [mul_assoc, ← zpow_add₀ (by norm_num : (10 : ℚ) ≠ 0)]
      have he : n.exponent + (p + 1) = -((kk - 1 : ℕ) : ℤ) := by omega
      rw [he, zpow_neg, zpow_natCast, div_eq_mul_inv]
      push_cast
      ring
    rw [hval, floor_div_eq_tdiv _ _ (le_of_lt hpos) (pow_pos (by norm_num) _), hM10]
    have hcast : ((n.significant.toNat : ℤ)) = n.significant :=
      Int.toNat_of_nonneg (le_of_lt hpos)
    have hjj : kk - 1 + 1 = kk := by omega
    have := digit_split n.significant.toNat (kk - 1)
    rw [hjj, hcast] at this
    rw [hMdef]
    exact this.symm
  rw [hb, hd]
  unfold round
  rw [← hn]
  unfold roundNorm
  rw [if_neg (by omega : ¬n.significant = 0), if_neg (by omega : ¬(-n.exponent - p ≤ 0))]
  show normalized (roundHalfEven n p) = _
  unfold roundHalfEven
  rw [if_neg (by omega : ¬n.significant < 0)]
  simp only [roundHalfEvenPos, ← hkkdef, ← hMdef]
  congr 1
  rcases lt_trichotomy ((n.significant.tmod M).tdiv (M.tdiv 10)) 5 with hr | hr | hr
  · rw [if_pos hr, if_neg (by rintro (h | ⟨h5, _⟩) <;> omega)]
  · rw [if_neg (by omega), if_pos hr]
    by_cases hpar : (2 : ℤ) ∣ n.significant.tdiv M
    · rw [if_pos (Int.tmod_eq_zero_of_dvd hpar),
        if_neg (by rintro (h | ⟨_, hnd⟩); omega; exact hnd hpar)]
    · rw [if_neg (fun h => hpar (Int.dvd_of_tmod_eq_zero h)),
        if_pos (Or.inr ⟨hr, hpar⟩)]
  · rw [if_neg (by omega), if_neg (by omega), if_pos (Or.inl hr)]

/-- Witness for C2 at the concrete input 2.15 = (215, -2) with precision 1:
the digit beyond the kept precision is 5 and the base 21 is odd, so the
base increments to 22 and the result is (22, -1). -/
theorem c2_round_half_even_digit_rule_witness :
    ((0 : ℤ) ≤ 1 ∧ 0 < (normalized ⟨215, -2⟩).significant
      ∧ 0 < -(normalized ⟨215, -2⟩).exponent - 1) ∧
    round RoundingMode.halfEven 1 ⟨215, -2⟩ =
      normalized ⟨if 5 < ⌊valueQ ⟨215, -2⟩ * (10 : ℚ) ^ ((1 : ℤ) + 1)⌋ % 10
            ∨ (⌊valueQ ⟨215, -2⟩ * (10 : ℚ) ^ ((1 : ℤ) + 1)⌋ % 10 = 5
                ∧ ¬(2 ∣ ⌊valueQ ⟨215, -2⟩ * (10 : ℚ) ^ (1 : ℤ)⌋))
          then ⌊valueQ ⟨215, -2⟩ * (10 : ℚ) ^ (1 : ℤ)⌋ + 1
          else ⌊valueQ ⟨215, -2⟩ * (10 : ℚ) ^ (1 : ℤ)⌋, -1⟩ :=
  ⟨⟨by norm_num, by decide, by decide⟩,
    (c2_round_half_even_digit_rule ⟨215, -2⟩ 1).1 (by norm_num) (by decide) (by decide)⟩

theorem valueQ_nonneg_iff (x : BigDecimal) : 0 ≤ valueQ x ↔ 0 ≤ x.significant := by
  unfold valueQ
  have h10 : (0 : ℚ) < (10 : ℚ) ^ x.exponent := zpow_pos (by norm_num) _
  rw [mul_nonneg_iff_of_pos_right h10]
  exact ⟨fun h => by exact_mod_cast h, fun h => by exact_mod_cast h⟩

theorem equalValue_of_valueQ {a b : BigDecimal} (h : valueQ a = valueQ b) :
    equalValue a b = true := by
  unfold equalValue equals
  rw [normalized_unique h]
  simp

/-- Values and signs of the non-negative branches of the integral/decimal
split: the parts sum exactly to the value, the integral part is the floor,
and both parts are non-negative. -/
theorem intdec_pos (x : BigDecimal) (hx : 0 ≤ x.significant) :
    valueQ (integralPartPos x) + valueQ (decimalPartPos x) = valueQ x ∧
    valueQ (integralPartPos x) = ⌊valueQ x⌋ ∧
    0 ≤ (integralPartPos x).significant ∧
    0 ≤ (decimalPartPos x).significant := by
  have hvx : 0 ≤ valueQ x := (valueQ_nonneg_iff x).mpr hx
  have hvn : 0 ≤ valueQ (normalized x) := by rw [valueQ_normalized]; exact hvx
  have hnsig : 0 ≤ (normalized x).significant := (valueQ_nonneg_iff _).mp hvn
  unfold integralPartPos decimalPartPos
  by_cases he : 0 ≤ (normalized x).exponent
  · rw [if_pos he, if_pos he]
    obtain ⟨k, hk⟩ : ∃ k : ℕ, (normalized x).exponent = (k : ℤ) :=
      ⟨_, (Int.toNat_of_nonneg he).symm⟩
    have hint : valueQ (normalized x) = (((normalized x).significant * 10 ^ k : ℤ) : ℚ) := by
      unfold valueQ
      rw [hk, zpow_natCast]
      push_cast
      ring
    refine ⟨?_, ?_, hnsig, le_refl 0⟩
    · rw [valueQ_normalized]
      show valueQ x + valueQ ZERO = valueQ x
      simp [valueQ, ZERO]
    · rw [valueQ_normalized, ← valueQ_normalized x, hint, Int.floor_intCast]
  · push_neg at he
    rw [if_neg (by omega), if_neg (by omega)]
    set E : ℤ := (10 : ℤ) ^ (-(normalized x).exponent).toNat with hEdef
    have hE : 0 < E := pow_pos (by norm_num) _
    have hE1 : ((E : ℤ) : ℚ) * (10 : ℚ) ^ (normalized x).exponent = 1 := by
      rw [hEdef]
      push_cast
      rw [← zpow_natCast (10 : ℚ), Int.toNat_of_nonneg (by omega : (0:ℤ) ≤ -(normalized x).exponent),
        ← zpow_add₀ (by norm_num : (10 : ℚ) ≠ 0)]
      simp
    have hsplit := Int.tdiv_add_tmod (normalized x).significant E
    refine ⟨?_, ?_, Int.tdiv_nonneg hnsig (le_of_lt hE), Int.tmod_nonneg E hnsig⟩
    · rw [← valueQ_normalized x]
      rw [valueQ_mk, valueQ_mk]
      unfold valueQ
      rw [zpow_zero, mul_one]
      calc ((normalized x).significant.tdiv E : ℚ)
            + ((normalized x).significant.tmod E : ℚ) * (10 : ℚ) ^ (normalized x).exponent
          = (((normalized x).significant.tdiv E : ℚ) * ((E : ℚ) * (10 : ℚ) ^ (normalized x).exponent))
            + ((normalized x).significant.tmod E : ℚ) * (10 : ℚ) ^ (normalized x).exponent := by
            rw [hE1, mul_one]
        _ = (((E * (normalized x).significant.tdiv E + (normalized x).significant.tmod E : ℤ)) : ℚ)
            * (10 : ℚ) ^ (normalized x).exponent := by push_cast; ring
        _ = ((normalized x).significant : ℚ) * (10 : ℚ) ^ (normalized x).exponent := by
            rw [hsplit]
    · rw [valueQ_mk, zpow_zero, mul_one, ← valueQ_normalized x]
      have hvE : valueQ (normalized x) = ((normalized x).significant : ℚ) / ((E : ℤ) : ℚ) := by
        unfold valueQ
        rw [eq_div_iff (by exact_mod_cast ne_of_gt hE)]
        calc ((normalized x).significant : ℚ) * (10 : ℚ) ^ (normalized x).exponent * ((E : ℤ) : ℚ)
            = ((normalized x).significant : ℚ)
              * (((E : ℤ) : ℚ) * (10 : ℚ) ^ (normalized x).exponent) := by ring
          _ = ((normalized x).significant : ℚ) := by rw [hE1, mul_one]
      rw [hvE, floor_div_eq_tdiv _ _ hnsig hE]

/-- Claim C7: for every value, including negatives, the integral part
truncates toward zero (its value is the floor for non-negative inputs and
the ceiling for negative ones), the split identity
`x.integralPart().add(x.decimalPart()).equalValue(x)` holds exactly, and
each part carries the sign of `x` (no part has the opposite sign). -/
theorem c7_integral_decimal_split (x : BigDecimal) :
    equalValue (add (integralPart x) (decimalPart x)) x = true ∧
    (0 ≤ valueQ x → valueQ (integralPart x) = ⌊valueQ x⌋) ∧
    (valueQ x < 0 → valueQ (integralPart x) = ⌈valueQ x⌉) ∧
    0 ≤ (integralPart x).significant * x.significant ∧
    0 ≤ (decimalPart x).significant * x.significant := by
  by_cases hx : 0 ≤ x.significant
  · have hpos := intdec_pos x hx
    have hint : integralPart x = integralPartPos x := by
      unfold integralPart
      rw [if_neg (by omega)]
    have hdec : decimalPart x = decimalPartPos x := by
      unfold decimalPart
      rw [if_neg (by omega)]
    refine ⟨equalValue_of_valueQ (by rw [valueQ_add, hint, hdec, hpos.1]), ?_, ?_, ?_, ?_⟩
    · intro _
      rw [hint]
      exact hpos.2.1
    · intro hneg
      exact absurd ((valueQ_nonneg_iff x).mpr hx) (by linarith)
    · rw [hint]
      exact mul_nonneg hpos.2.2.1 hx
    · rw [hdec]
      exact mul_nonneg hpos.2.2.2 hx
  · push_neg at hx
    have hnx : 0 ≤ (negate x).significant := by simp [negate]; omega
    have hpos := intdec_pos (negate x) hnx
    have hint : integralPart x = negate (integralPartPos (negate x)) := by
      unfold integralPart
      rw [if_pos hx]
    have hdec : decimalPart x = negate (decimalPartPos (negate x)) := by
      unfold decimalPart
      rw [if_pos hx]
    have hvx : valueQ (negate x) = -valueQ x := valueQ_negate x
    have hxneg : valueQ x < 0 := by
      by_contra hge
      push_neg at hge
      exact absurd ((valueQ_nonneg_iff x).mp hge) (by omega)
    refine ⟨?_, ?_, ?_, ?_, ?_⟩
    · apply equalValue_of_valueQ
      rw [valueQ_add, hint, hdec, valueQ_negate, valueQ_negate]
      have hsum := hpos.1
      rw [hvx] at hsum
      linarith
    · intro h0
      linarith
    · intro _
      rw [hint, valueQ_negate, hpos.2.1, hvx, Int.floor_neg]
      push_cast
      ring
    · rw [hint]
      have ha := hpos.2.2.1
      show 0 ≤ -(integralPartPos (negate x)).significant * x.significant
      have : -(integralPartPos (negate x)).significant * x.significant
          = (integralPartPos (negate x)).significant * (-x.significant) := by ring
      rw [this]
      exact mul_nonneg ha (by omega)
    · rw [hdec]
      have ha := hpos.2.2.2
      show 0 ≤ -(decimalPartPos (negate x)).significant * x.significant
      have : -(decimalPartPos (negate x)).significant * x.significant
          = (decimalPartPos (negate x)).significant * (-x.significant) := by ring
      rw [this]
      exact mul_nonneg ha (by omega)

/-- Witness for C7 at the negative concrete input -2.15 = (-215, -2):
the floor clause applies vacuously and the ceiling clause gives -2. -/
theorem c7_integral_decimal_split_witness :
    equalValue (add (integralPart ⟨-215, -2⟩) (decimalPart ⟨-215, -2⟩)) ⟨-215, -2⟩ = true ∧
    (valueQ ⟨-215, -2⟩ < 0) ∧ valueQ (integralPart ⟨-215, -2⟩) = ⌈valueQ ⟨-215, -2⟩⌉ := by
  obtain ⟨h1, _, h3, _, _⟩ := c7_integral_decimal_split ⟨-215, -2⟩
  have hneg : valueQ (⟨-215, -2⟩ : BigDecimal) < 0 := by
    unfold valueQ
    norm_num
  exact ⟨h1, hneg, h3 hneg⟩

/-- Characterization of the `divide` scaling loop: with fuel `n` it scales
the significant by the least number `k ≤ n` of factors of ten that achieves
divisibility (or by `n` factors when the budget is exhausted), decrementing
the exponent once per factor. -/
theorem divLoop_spec (d : ℤ) (n : ℕ) : ∀ (m e : ℤ), ∃ k : ℕ, k ≤ n ∧
    divLoop d n m e = (m * 10 ^ k, e - (k : ℤ)) ∧
    (∀ j < k, ¬(d ∣ m * 10 ^ j)) ∧
    (d ∣ m * 10 ^ k ∨ k = n) := by
  induction n with
  | zero =>
    intro m e
    exact ⟨0, le_refl 0, by simp [divLoop], fun j hj => absurd hj (by omega), Or.inr rfl⟩
  | succ n ih =>
    intro m e
    by_cases h : m.tmod d = 0
    · refine ⟨0, by omega, by simp [divLoop, h], fun j hj => absurd hj (by omega), Or.inl ?_⟩
      simpa using Int.dvd_of_tmod_eq_zero h
    · obtain ⟨k, hk, heq, hmin, hlast⟩ := ih (m * 10) (e - 1)
      refine ⟨k + 1, by omega, ?_, ?_, ?_⟩
      · simp only [divLoop, if_neg h]
        rw [heq]
        refine Prod.ext ?_ ?_
        · show m * 10 * 10 ^ k = m * 10 ^ (k + 1)
          ring
        · show e - 1 - (k : ℤ) = e - ((k : ℕ) + 1 : ℕ)
          push_cast
          ring
      · intro j hj
        cases j with
        | zero =>
          simpa [Int.dvd_iff_tmod_eq_zero] using h
        | succ j' =>
          intro hd
          exact hmin j' (by omega) (by rwa [show m * 10 ^ (j' + 1) = m * 10 * 10 ^ j' from by ring] at hd)
      · rcases hlast with hd | hk10
        · exact Or.inl (by rwa [show m * 10 * 10 ^ k = m * 10 ^ (k + 1) from by ring] at hd)
        · exact Or.inr (by omega)

/-- Claim C8: for nonzero operands, `divide` scales the dividend's
significant by ten, decrementing the working exponent once per step, at most
ten times and stopping as soon as the scaled significant is divisible by the
divisor's significant, then truncating-divides the significants; when
divisibility is reached within the ten-step budget the result is exactly
`a / b`, and otherwise the scaling stops at exactly ten extra decimal
digits (the fixed, non-configurable budget). -/
theorem c8_divide_scaling_budget (a b : BigDecimal)
    (ha : a.significant ≠ 0) (hb : b.significant ≠ 0) :
    ∃ k : ℕ, k ≤ 10 ∧
      (∀ j < k, ¬(b.significant ∣ a.significant * 10 ^ j)) ∧
      (b.significant ∣ a.significant * 10 ^ k ∨ k = 10) ∧
      divide a b = .ok (normalized ⟨(a.significant * 10 ^ k).tdiv b.significant,
        (a.exponent - (k : ℤ)) - b.exponent⟩) ∧
      (b.significant ∣ a.significant * 10 ^ k →
        valueQ (normalized ⟨(a.significant * 10 ^ k).tdiv b.significant,
          (a.exponent - (k : ℤ)) - b.exponent⟩) = valueQ a / valueQ b) := by
  obtain ⟨k, hk10, heq, hmin, hlast⟩ := divLoop_spec b.significant 10 a.significant a.exponent
  refine ⟨k, hk10, hmin, hlast, ?_, ?_⟩
  · unfold divide
    rw [if_neg hb, if_neg ha]
    show Except.ok (normalized ⟨(divLoop b.significant 10 a.significant a.exponent).1.tdiv
      b.significant, (divLoop b.significant 10 a.significant a.exponent).2 - b.exponent⟩) = _
    rw [heq]
  · intro hdvd
    obtain ⟨c', hc'⟩ := hdvd
    have htdiv : (a.significant * 10 ^ k).tdiv b.significant = c' := by
      rw [hc']
      exact Int.mul_tdiv_cancel_left c' hb
    rw [valueQ_normalized, valueQ_mk, htdiv]
    have hbq : valueQ b ≠ 0 := fun h => hb ((valueQ_eq_zero_iff b).mp h)
    rw [eq_div_iff hbq]
    have hcast : ((a.significant : ℚ)) * (10 : ℚ) ^ (k : ℤ)
        = (b.significant : ℚ) * (c' : ℚ) := by
      have := congrArg (fun z : ℤ => (z : ℚ)) hc'
      push_cast at this
      rw [zpow_natCast]
      exact this
    unfold valueQ
    have h1 : (10 : ℚ) ^ (a.exponent - (k : ℤ) - b.exponent) * (10 : ℚ) ^ b.exponent
        = (10 : ℚ) ^ (a.exponent - (k : ℤ)) := by
      rw [← zpow_add₀ (by norm_num : (10 : ℚ) ≠ 0)]
      congr 1
      ring
    have h2 : (10 : ℚ) ^ (k : ℤ) * (10 : ℚ) ^ (a.exponent - (k : ℤ))
        = (10 : ℚ) ^ a.exponent := by
      rw [← zpow_add₀ (by norm_num : (10 : ℚ) ≠ 0)]
      congr 1
      ring
    calc (c' : ℚ) * (10 : ℚ) ^ (a.exponent - (k : ℤ) - b.exponent)
          * ((b.significant : ℚ) * (10 : ℚ) ^ b.exponent)
        = ((b.significant : ℚ) * (c' : ℚ))
          * ((10 : ℚ) ^ (a.exponent - (k : ℤ) - b.exponent) * (10 : ℚ) ^ b.exponent) := by
          ring
      _ = ((a.significant : ℚ) * (10 : ℚ) ^ (k : ℤ))
          * (10 : ℚ) ^ (a.exponent - (k : ℤ)) := by rw [← hcast, h1]
      _ = (a.significant : ℚ) * ((10 : ℚ) ^ (k : ℤ) * (10 : ℚ) ^ (a.exponent - (k : ℤ))) := by
          ring
      _ = (a.significant : ℚ) * (10 : ℚ) ^ a.exponent := by rw [h2]

/-- Witness for C8 at 3 / 2: one scaling step reaches divisibility and the
result 1.5 is exact. -/
theorem c8_divide_scaling_budget_witness :
    ((⟨3, 0⟩ : BigDecimal).significant ≠ 0 ∧ (⟨2, 0⟩ : BigDecimal).significant ≠ 0) ∧
    (∃ k : ℕ, k ≤ 10 ∧
      (∀ j < k, ¬((⟨2, 0⟩ : BigDecimal).significant
        ∣ (⟨3, 0⟩ : BigDecimal).significant * 10 ^ j)) ∧
      ((⟨2, 0⟩ : BigDecimal).significant
        ∣ (⟨3, 0⟩ : BigDecimal).significant * 10 ^ k ∨ k = 10) ∧
      divide ⟨3, 0⟩ ⟨2, 0⟩ = .ok (normalized
        ⟨((⟨3, 0⟩ : BigDecimal).significant * 10 ^ k).tdiv (⟨2, 0⟩ : BigDecimal).significant,
          ((⟨3, 0⟩ : BigDecimal).exponent - (k : ℤ)) - (⟨2, 0⟩ : BigDecimal).exponent⟩) ∧
      ((⟨2, 0⟩ : BigDecimal).significant
          ∣ (⟨3, 0⟩ : BigDecimal).significant * 10 ^ k →
        valueQ (normalized
          ⟨((⟨3, 0⟩ : BigDecimal).significant * 10 ^ k).tdiv (⟨2, 0⟩ : BigDecimal).significant,
            ((⟨3, 0⟩ : BigDecimal).exponent - (k : ℤ)) - (⟨2, 0⟩ : BigDecimal).exponent⟩)
          = valueQ ⟨3, 0⟩ / valueQ ⟨2, 0⟩)) :=
  ⟨⟨by decide, by decide⟩, c8_divide_scaling_budget ⟨3, 0⟩ ⟨2, 0⟩ (by decide) (by decide)⟩

/-- Truncating integer division never exceeds the exact quotient in
magnitude. -/
theorem abs_tdiv_le (m d : ℤ) : |((m.tdiv d : ℤ) : ℚ)| ≤ |(m : ℚ) / (d : ℚ)| := by
  rcases eq_or_ne d 0 with rfl | hd
  · simp [Int.tdiv_zero]
  · have hdq : ((d : ℚ)) ≠ 0 := Int.cast_ne_zero.mpr hd
    rw [abs_div, le_div_iff₀ (abs_pos.mpr hdq)]
    have hN : (m.tdiv d).natAbs * d.natAbs ≤ m.natAbs := by
      rw [Int.natAbs_tdiv]
      exact Nat.div_mul_le_self _ _
    have habs : ∀ z : ℤ, |((z : ℤ) : ℚ)| = ((z.natAbs : ℕ) : ℚ) := fun z => by
      rw [Int.cast_natAbs, Int.cast_abs]
    rw [habs, habs, habs]
    exact_mod_cast hN

/-- Truncating integer division has the sign of the exact quotient. -/
theorem tdiv_mul_div_nonneg (m d : ℤ) :
    0 ≤ ((m.tdiv d : ℤ) : ℚ) * ((m : ℚ) / (d : ℚ)) := by
  rcases le_or_lt 0 m with hm | hm <;> rcases le_or_lt 0 d with hd | hd
  · exact mul_nonneg (by exact_mod_cast Int.tdiv_nonneg hm hd)
      (div_nonneg_iff.mpr (Or.inl ⟨by exact_mod_cast hm, by exact_mod_cast hd⟩))
  · have h1 : (m.tdiv d : ℚ) ≤ 0 := by
      exact_mod_cast Int.tdiv_nonpos hm (le_of_lt hd)
    have h2 : (m : ℚ) / (d : ℚ) ≤ 0 := div_nonpos_iff.mpr
      (Or.inl ⟨by exact_mod_cast hm, by exact_mod_cast le_of_lt hd⟩)
    nlinarith
  · have h0 : m.tdiv d ≤ 0 := by
      have hneg : 0 ≤ (-m).tdiv d := Int.tdiv_nonneg (by omega) hd
      have := Int.neg_tdiv m d
      omega
    have h1 : (m.tdiv d : ℚ) ≤ 0 := by exact_mod_cast h0
    have h2 : (m : ℚ) / (d : ℚ) ≤ 0 := div_nonpos_iff.mpr
      (Or.inr ⟨by exact_mod_cast le_of_lt hm, by exact_mod_cast hd⟩)
    nlinarith
  · have h0 : 0 ≤ m.tdiv d := by
      have := Int.neg_tdiv_neg m d
      have hneg : 0 ≤ (-m).tdiv (-d) := Int.tdiv_nonneg (by omega) (by omega)
      omega
    exact mul_nonneg (by exact_mod_cast h0)
      (div_nonneg_iff.mpr (Or.inr ⟨by exact_mod_cast le_of_lt hm,
        by exact_mod_cast le_of_lt hd⟩))

/-- Value of a purely fractional representation as an exact quotient. -/
theorem valueQ_as_div (w : BigDecimal) (hwe : w.exponent < 0) :
    valueQ w = (w.significant : ℚ) / (((10 : ℤ) ^ (-w.exponent).toNat : ℤ) : ℚ) := by
  have hE : (((10 : ℤ) ^ (-w.exponent).toNat : ℤ) : ℚ) ≠ 0 := by
    push_cast
    positivity
  rw [eq_div_iff hE]
  unfold valueQ
  rw [mul_assoc]
  congr 1
  push_cast
  rw [← zpow_natCast (10 : ℚ) (-w.exponent).toNat,
    Int.toNat_of_nonneg (by omega : (0 : ℤ) ≤ -w.exponent),
    ← zpow_add₀ (by norm_num : (10 : ℚ) ≠ 0)]
  simp

/-- The result of `divide` truncates toward zero: its magnitude never
exceeds the exact quotient's and its sign agrees with it. -/
theorem divide_trunc (a b : BigDecimal) (hb : b.significant ≠ 0) :
    ∃ q, divide a b = .ok q ∧ |valueQ q| ≤ |valueQ a / valueQ b| ∧
      0 ≤ valueQ q * (valueQ a / valueQ b) := by
  have hbq : valueQ b ≠ 0 := fun h => hb ((valueQ_eq_zero_iff b).mp h)
  have hd : (b.significant : ℚ) ≠ 0 := Int.cast_ne_zero.mpr hb
  by_cases ha : a.significant = 0
  · refine ⟨⟨0, 0⟩, ?_, ?_, ?_⟩
    · unfold divide
      rw [if_neg hb, if_pos ha]
    · have h0 : valueQ ⟨0, 0⟩ = 0 := by simp [valueQ]
      rw [h0]
      simpa using abs_nonneg _
    · have h0 : valueQ ⟨0, 0⟩ = 0 := by simp [valueQ]
      rw [h0, zero_mul]
  · obtain ⟨k, hk, heq, hmin, hlast⟩ := divLoop_spec b.significant 10 a.significant a.exponent
    have hdiv : divide a b = .ok (normalized
        ⟨(a.significant * 10 ^ k).tdiv b.significant,
          (a.exponent - (k : ℤ)) - b.exponent⟩) := by
      unfold divide
      rw [if_neg hb, if_neg ha]
      show Except.ok (normalized ⟨(divLoop b.significant 10 a.significant a.exponent).1.tdiv
        b.significant, (divLoop b.significant 10 a.significant a.exponent).2 - b.exponent⟩) = _
      rw [heq]
    have hNq : ((a.significant * 10 ^ k : ℤ) : ℚ)
        = (a.significant : ℚ) * (10 : ℚ) ^ (k : ℤ) := by
      push_cast
      rw [zpow_natCast]
    have hab : valueQ a / valueQ b
        = (((a.significant * 10 ^ k : ℤ) : ℚ) / (b.significant : ℚ))
          * (10 : ℚ) ^ ((a.exponent - (k : ℤ)) - b.exponent) := by
      rw [div_eq_iff hbq]
      unfold valueQ
      rw [hNq]
      symm
      have hz : (10 : ℚ) ^ ((a.exponent - (k : ℤ)) - b.exponent) * (10 : ℚ) ^ b.exponent
          = (10 : ℚ) ^ (a.exponent - (k : ℤ)) := by
        rw [← zpow_add₀ (by norm_num : (10 : ℚ) ≠ 0)]
        congr 1
        ring
      have hz2 : (10 : ℚ) ^ (k : ℤ) * (10 : ℚ) ^ (a.exponent - (k : ℤ))
          = (10 : ℚ) ^ a.exponent := by
        rw [← zpow_add₀ (by norm_num : (10 : ℚ) ≠ 0)]
        congr 1
        ring
      calc (a.significant : ℚ) * (10 : ℚ) ^ (k : ℤ) / (b.significant : ℚ)
            * (10 : ℚ) ^ ((a.exponent - (k : ℤ)) - b.exponent)
            * ((b.significant : ℚ) * (10 : ℚ) ^ b.exponent)
          = (a.significant : ℚ) * (10 : ℚ) ^ (k : ℤ) / (b.significant : ℚ)
            * (b.significant : ℚ)
            * ((10 : ℚ) ^ ((a.exponent - (k : ℤ)) - b.exponent) * (10 : ℚ) ^ b.exponent) := by
            ring
        _ = (a.significant : ℚ) * (10 : ℚ) ^ (k : ℤ)
            * (10 : ℚ) ^ (a.exponent - (k : ℤ)) := by
            rw [div_mul_cancel₀ _ hd, hz]
        _ = (a.significant : ℚ)
            * ((10 : ℚ) ^ (k : ℤ) * (10 : ℚ) ^ (a.exponent - (k : ℤ))) := by ring
        _ = (a.significant : ℚ) * (10 : ℚ) ^ a.exponent := by rw [hz2]
    have hvq : valueQ (normalized
        ⟨(a.significant * 10 ^ k).tdiv b.significant,
          (a.exponent - (k : ℤ)) - b.exponent⟩)
        = (((a.significant * 10 ^ k).tdiv b.significant : ℤ) : ℚ)
          * (10 : ℚ) ^ ((a.exponent - (k : ℤ)) - b.exponent) := by
      rw [valueQ_normalized, valueQ_mk]
    have hzp : (0 : ℚ) < (10 : ℚ) ^ ((a.exponent - (k : ℤ)) - b.exponent) :=
      zpow_pos (by norm_num) _
    refine ⟨_, hdiv, ?_, ?_⟩
    · rw [hvq, hab, abs_mul, abs_mul]
      exact mul_le_mul_of_nonneg_right (abs_tdiv_le _ _) (abs_nonneg _)
    · rw [hvq, hab]
      have hs := tdiv_mul_div_nonneg (a.significant * 10 ^ k) b.significant
      nlinarith [hs, mul_pos hzp hzp]

/-- The non-negative branch of `#roundDown` at precision 0 truncates toward
zero in value. -/
theorem roundDownPos_trunc (w : BigDecimal) (hwe : w.exponent < 0) :
    |valueQ (roundDownPos w 0)| ≤ |valueQ w| ∧
      0 ≤ valueQ (roundDownPos w 0) * valueQ w := by
  unfold roundDownPos
  have h00 : -w.exponent - 0 = -w.exponent := by ring
  rw [h00]
  have hv1 : valueQ ⟨w.significant.tdiv ((10 : ℤ) ^ (-w.exponent).toNat), -(0 : ℤ)⟩
      = ((w.significant.tdiv ((10 : ℤ) ^ (-w.exponent).toNat) : ℤ) : ℚ) := by
    rw [valueQ_mk]
    norm_num
  rw [hv1, valueQ_as_div w hwe]
  exact ⟨abs_tdiv_le _ _, tdiv_mul_div_nonneg _ _⟩

/-- `round` with mode `down` and precision 0 truncates toward zero in
value. -/
theorem roundDown_trunc (y : BigDecimal) :
    |valueQ (round RoundingMode.down 0 y)| ≤ |valueQ y| ∧
      0 ≤ valueQ (round RoundingMode.down 0 y) * valueQ y := by
  unfold round
  rw [show valueQ y = valueQ (normalized y) from (valueQ_normalized y).symm]
  set n := normalized y with hn
  unfold roundNorm
  by_cases hz : n.significant = 0
  · rw [if_pos hz]
    have h0 : valueQ ZERO = 0 := by simp [valueQ, ZERO]
    rw [h0]
    exact ⟨by simpa using abs_nonneg _, by rw [zero_mul]⟩
  · rw [if_neg hz]
    by_cases he : -n.exponent - 0 ≤ 0
    · rw [if_pos he]
      exact ⟨le_refl _, mul_self_nonneg _⟩
    · rw [if_neg he]
      show |valueQ (normalized (roundDown n 0))| ≤ _ ∧
        0 ≤ valueQ (normalized (roundDown n 0)) * _
      rw [valueQ_normalized]
      have hne : n.exponent < 0 := by omega
      unfold roundDown
      by_cases hneg : n.significant < 0
      · rw [if_pos hneg]
        obtain ⟨ha, hs⟩ := roundDownPos_trunc (negate n) hne
        constructor
        · rw [valueQ_negate, abs_neg]
          calc |valueQ (roundDownPos (negate n) 0)| ≤ |valueQ (negate n)| := ha
            _ = |valueQ n| := by rw [valueQ_negate, abs_neg]
        · rw [valueQ_negate]
          have hs' := hs
          rw [valueQ_negate] at hs'
          nlinarith
      · rw [if_neg hneg]
        exact roundDownPos_trunc n hne

/-- Transitivity of sign agreement through a dominating middle factor. -/
theorem sign_trans {x y z : ℚ} (hxy : 0 ≤ x * y) (hyz : 0 ≤ y * z)
    (hx0 : |x| ≤ |y|) : 0 ≤ x * z := by
  rcases lt_trichotomy y 0 with hy | hy | hy
  · have hx : x ≤ 0 := by nlinarith
    have hz : z ≤ 0 := by nlinarith
    nlinarith
  · have hxz : |x| ≤ 0 := by
      rw [hy] at hx0
      simpa using hx0
    have hx : x = 0 := abs_eq_zero.mp (le_antisymm hxz (abs_nonneg _))
    rw [hx, zero_mul]
  · have hx : 0 ≤ x := by nlinarith
    have hz : 0 ≤ z := by nlinarith
    exact mul_nonneg hx hz

/-- Claim C9: for every dividend and nonzero divisor, `remainder(a, b)`
equals `a - divideToIntegralValue(a, b) * b` exactly (both structurally and
in value), and its sign follows the sign of `a` — the product of the
remainder's value with the dividend's value is never negative (so the result
may be negative and Euclidean semantics are not claimed). -/
theorem c9_remainder_exact_sign (a b : BigDecimal) (hb : b.significant ≠ 0) :
    ∃ t r, divideToIntegralValue a b = .ok t ∧ remainder a b = .ok r ∧
      r = subtract a (multiply t b) ∧
      valueQ r = valueQ a - valueQ t * valueQ b ∧
      0 ≤ valueQ r * valueQ a := by
  obtain ⟨q, hq, habs, hsign⟩ := divide_trunc a b hb
  have hdti : divideToIntegralValue a b = .ok (round RoundingMode.down 0 q) := by
    unfold divideToIntegralValue
    rw [hq]
    rfl
  have hrem : remainder a b
      = .ok (subtract a (multiply (round RoundingMode.down 0 q) b)) := by
    unfold remainder
    rw [hdti]
    rfl
  obtain ⟨htabs, htsign⟩ := roundDown_trunc q
  refine ⟨_, _, hdti, hrem, rfl, by rw [valueQ_subtract, valueQ_multiply], ?_⟩
  have hbq : valueQ b ≠ 0 := fun h => hb ((valueQ_eq_zero_iff b).mp h)
  set t := round RoundingMode.down 0 q with ht
  have h1 : 0 ≤ valueQ t * (valueQ a / valueQ b) := sign_trans htsign hsign htabs
  have h2 : |valueQ t| ≤ |valueQ a / valueQ b| := le_trans htabs habs
  have h3 : 0 ≤ valueQ t * valueQ b * valueQ a := by
    have hsq : valueQ t * (valueQ a / valueQ b) * (valueQ b * valueQ b)
        = valueQ t * valueQ b * valueQ a := by
      field_simp
      ring
    calc (0 : ℚ) ≤ valueQ t * (valueQ a / valueQ b) * (valueQ b * valueQ b) :=
          mul_nonneg h1 (mul_self_nonneg _)
      _ = valueQ t * valueQ b * valueQ a := hsq
  have h4 : |valueQ t * valueQ b| ≤ |valueQ a| := by
    rw [abs_mul]
    have hbabs : 0 < |valueQ b| := abs_pos.mpr hbq
    rw [abs_div] at h2
    calc |valueQ t| * |valueQ b| ≤ |valueQ a| / |valueQ b| * |valueQ b| :=
          mul_le_mul_of_nonneg_right h2 (le_of_lt hbabs)
      _ = |valueQ a| := div_mul_cancel₀ _ (ne_of_gt hbabs)
  have h5 : valueQ t * valueQ b * valueQ a ≤ valueQ a * valueQ a := by
    calc valueQ t * valueQ b * valueQ a ≤ |valueQ t * valueQ b * valueQ a| := le_abs_self _
      _ = |valueQ t * valueQ b| * |valueQ a| := abs_mul _ _
      _ ≤ |valueQ a| * |valueQ a| := mul_le_mul_of_nonneg_right h4 (abs_nonneg _)
      _ = valueQ a * valueQ a := abs_mul_abs_self _
  rw [valueQ_subtract, valueQ_multiply]
  nlinarith [h5]

/-- Witness for C9 at -7 divided by 3, where the remainder -1 is negative
and carries the dividend's sign. -/
theorem c9_remainder_exact_sign_witness :
    (⟨3, 0⟩ : BigDecimal).significant ≠ 0 ∧
    (∃ t r, divideToIntegralValue ⟨-7, 0⟩ ⟨3, 0⟩ = .ok t ∧
      remainder ⟨-7, 0⟩ ⟨3, 0⟩ = .ok r ∧
      r = subtract ⟨-7, 0⟩ (multiply t ⟨3, 0⟩) ∧
      valueQ r = valueQ ⟨-7, 0⟩ - valueQ t * valueQ ⟨3, 0⟩ ∧
      0 ≤ valueQ r * valueQ ⟨-7, 0⟩) :=
  ⟨by decide, c9_remainder_exact_sign ⟨-7, 0⟩ ⟨3, 0⟩ (by decide)⟩

/-- Witness for C10 with the concrete zero operand and the seed the source
computes for it. -/
theorem c10_sqrt_zero_division_undefined_witness :
    ZERO.significant = 0 ∧
      sqrtWithSeed (fun _ => ZERO) ZERO = .error .divisionUndefined :=
  ⟨rfl, (c10_sqrt_zero_division_undefined (fun _ => ZERO) ZERO).1 rfl rfl⟩

end BigDecimal
